import Mathlib

/-
Verification of `make_website.py` (lsst-ts/sal_topics_website).

The script is embedded shallowly:

* bytes lines from the listing command become `String`s; the Python
  expression `str(result).split()[-1].strip("'")` is modelled by
  `extractValue` (the `str` of a bytes object prepends `b'` and appends
  `'`, which is faithful for lines made of printable characters without
  quotes or backslashes);
* the Python nested `defaultdict` accumulator becomes an insertion-ordered
  association list (`ArtifactMap`), matching dict insertion-order
  semantics;
* the `IndexError` raised on short paths becomes `Except.error`;
* the filesystem side effects of the site builder become a trace of
  `FsEvent`s, with `runEvents` giving the operational meaning of
  `os.makedirs` (create all intermediate directories) and `open(..., 'w')`
  (fails when the parent directory is missing).
-/

/-! ## Constants (lines 6-12 of the script) -/

def SAL_TOPIC_BUCKET : String := "sal-topic-registry"

def BUCKET_WEBSITE : String :=
  "http://" ++ SAL_TOPIC_BUCKET ++ ".s3-website-us-west-2.amazonaws.com"

def LSST_FONTS : String := "http://fonts.googleapis.com/css?family=Raleway:subset=latin"

def OUTPUT_LOCATION : String := "website"

def INDEX_FILE : String := "index.html"

def LS_EXCLUDES : List String := [INDEX_FILE, "css", "images", ".gitignore"]

/-! ## Python string primitives used by the script -/

/-- Python whitespace characters, as used by `str.split()` with no argument. -/
def pyIsSpace (c : Char) : Bool :=
  c == ' ' || c == '\t' || c == '\n' || c == '\x0b' || c == '\x0c' || c == '\r'

/-- Worker for `pySplitWs`: `acc` holds the current field, reversed. -/
def pySplitWsAux : List Char → List Char → List String
  | [], acc => if acc = [] then [] else [String.mk acc.reverse]
  | c :: cs, acc =>
    if pyIsSpace c then
      if acc = [] then pySplitWsAux cs []
      else String.mk acc.reverse :: pySplitWsAux cs []
    else pySplitWsAux cs (c :: acc)

/-- Python `str.split()` with no argument: split on runs of whitespace,
dropping empty fields. -/
def pySplitWs (s : String) : List String :=
  pySplitWsAux s.data []

/-- Worker for `pySplitChar`: `acc` holds the current field, reversed. -/
def pySplitCharAux (sep : Char) : List Char → List Char → List String
  | [], acc => [String.mk acc.reverse]
  | c :: cs, acc =>
    if c == sep then String.mk acc.reverse :: pySplitCharAux sep cs []
    else pySplitCharAux sep cs (c :: acc)

/-- Python `str.split(sep)` for a one-character separator: split at every
occurrence, keeping empty fields (`''.split(sep) == ['']`). -/
def pySplitChar (sep : Char) (s : String) : List String :=
  pySplitCharAux sep s.data []

/-- Python `str.strip(c)`: remove every leading and trailing occurrence of `c`. -/
def pyStrip (c : Char) (s : String) : String :=
  String.mk (((s.data.dropWhile (fun a => a == c)).reverse.dropWhile (fun a => a == c)).reverse)

/-- Python `str.capitalize()`: first character upper-cased, the rest lower-cased. -/
def pyCapitalize (s : String) : String :=
  match s.data with
  | [] => ""
  | c :: cs => String.mk (c.toUpper :: cs.map Char.toLower)

/-- `values = str(result).split()[-1].strip("'")` (line 65): `str` of the
bytes line wraps it in `b'...'`; take the last whitespace token and strip
quotes.  The token list is never empty (the text starts with `b`), so the
`[-1]` index is total; `getLastD` with an unused default renders it. -/
def extractValue (line : String) : String :=
  pyStrip '\'' ((pySplitWs (String.mk ('b' :: '\'' :: (line.data ++ ['\''])))).getLastD "")

/-- Does `pat` occur at the start of `l`? -/
def listStartsWith : List Char → List Char → Bool
  | [], _ => true
  | _ :: _, [] => false
  | p :: ps, c :: cs => p == c && listStartsWith ps cs

/-- Does `pat` occur anywhere inside `l`?  (Python's `pat in s`.) -/
def listContainsSub (pat : List Char) : List Char → Bool
  | [] => listStartsWith pat []
  | c :: cs => listStartsWith pat (c :: cs) || listContainsSub pat cs

/-- Python substring containment `pat in s`. -/
def strContains (s pat : String) : Bool := listContainsSub pat.data s.data

/-- The exclusion loop of lines 66-69: `exclude_match` is set when any
element of `LS_EXCLUDES` occurs inside the extracted value. -/
def excludeMatch (values : String) : Bool :=
  LS_EXCLUDES.any (fun e => strContains values e)

/-! ## The Artifact Map (`collections.defaultdict` accumulator) -/

/-- Sub-map: sub-key to ordered list of leaf names (`defaultdict(list)`). -/
abbrev SubMap := List (String × List String)

/-- The three-level Artifact Map, insertion-ordered like a Python dict. -/
abbrev ArtifactMap := List (String × SubMap)

/-- Association-list lookup (Python `d[k]` / `k in d`). -/
def alGet {α : Type} : List (String × α) → String → Option α
  | [], _ => none
  | (k, v) :: rest, key => if k = key then some v else alGet rest key

/-- `artifacts[items[0]][items[1]].append(items[2])` at the inner level:
a `defaultdict(list)` appends to the existing list in place, or adds a new
key at the end of the insertion order with a singleton list. -/
def insertSub : SubMap → String → String → SubMap
  | [], b, c => [(b, [c])]
  | (k, ls) :: rest, b, c =>
    if k = b then (k, ls ++ [c]) :: rest else (k, ls) :: insertSub rest b c

/-- Lines 75-77: create the top-level entry if missing (appended at the end
of the insertion order), then append the leaf under the sub-key. -/
def insertLeaf : ArtifactMap → String → String → String → ArtifactMap
  | [], a, b, c => [(a, insertSub [] b c)]
  | (k, sm) :: rest, a, b, c =>
    if k = a then (k, insertSub sm b c) :: rest else (k, sm) :: insertLeaf rest a b c

/-- The body of the `for result in results` loop (lines 64-77) applied to an
extracted value: skip excluded or sentinel values, split on `os.sep` (`/`),
and insert the first three segments; fewer than three segments raises
`IndexError` at `items[1]` or `items[2]`. -/
def processValues (m : ArtifactMap) (values : String) : Except String ArtifactMap :=
  if excludeMatch values || values == "b" then Except.ok m
  else
    match pySplitChar '/' values with
    | i0 :: i1 :: i2 :: _ => Except.ok (insertLeaf m i0 i1 i2)
    | _ => Except.error "IndexError: list index out of range"

/-- The loop of lines 64-77 over a list of extracted values; an exception
aborts the whole run. -/
def buildArtifacts (m : ArtifactMap) : List String → Except String ArtifactMap
  | [] => Except.ok m
  | v :: rest =>
    match processValues m v with
    | Except.ok m2 => buildArtifacts m2 rest
    | Except.error e => Except.error e

/-- `get_bucket_directories` (lines 47-82), taking the lines of the listing
command's stdout (already split on newlines) as input. -/
def get_bucket_directories (lines : List String) : Except String ArtifactMap :=
  buildArtifacts [] (lines.map extractValue)

/-! ## Observations on the Artifact Map -/

/-- The leaf list recorded under `(a, b)`; `[]` when the pair is absent. -/
def leavesIn (m : ArtifactMap) (a b : String) : List String :=
  match alGet m a with
  | none => []
  | some sm => (alGet sm b).getD []

/-- Is `a` a top-level key of the map? -/
def keyPresent (m : ArtifactMap) (a : String) : Bool := (alGet m a).isSome

/-- Is `b` a sub-key under the top-level key `a`? -/
def subPresent (m : ArtifactMap) (a b : String) : Bool :=
  match alGet m a with
  | none => false
  | some sm => (alGet sm b).isSome

deriving instance DecidableEq for Except

/-! ## The site builder as a trace of filesystem events

Paths are segment lists; `os.path.join(p, s)` is `p ++ [s]`. -/

/-- A filesystem side effect of the script: `check_and_make_dirs`
(lines 14-23; `os.makedirs` when missing, creating all intermediate
directories) or writing a file with the given lines as content. -/
inductive FsEvent where
  | mkdirs : List String → FsEvent
  | writeFile : List String → List String → FsEvent
deriving DecidableEq

/-- The parsed command-line options (`create_parser`, lines 25-45):
`-v` count, `--sync` flag, `--base` optional string. -/
structure Opts where
  verbose : Nat
  sync : Bool
  base : Option String
deriving DecidableEq

/-- Python rendering of `opts.base` inside an f-string (`None` prints as
the text `None`; `main` replaces `None` with `BUCKET_WEBSITE` first). -/
def baseStr : Option String → String
  | none => "None"
  | some s => s

/-- The `content` dictionary passed to `write_html_index_file`: a `title`,
an optional `heading`, and the presence of the `link` flag. -/
structure PageContent where
  title : String
  heading : Option String
  link : Bool
deriving DecidableEq

/-- Lines 150-153: display text of a link is `link.split('.')[0]`, further
reduced to `text.split('_')[-1]` when the `link` flag is set. -/
def linkText (content : PageContent) (link : String) : String :=
  let text := (pySplitChar '.' link).headD ""
  if content.link then (pySplitChar '_' text).getLastD "" else text

/-- The `for link in links` loop of lines 150-154: one anchor line per link. -/
def linkLines (content : PageContent) : List String → List String
  | [] => []
  | link :: rest =>
    ("<a href=" ++ link ++ ">" ++ linkText content link ++ "</a><br />\n")
      :: linkLines content rest

/-- The template list built by `write_html_index_file` (lines 138-156). -/
def indexTemplate (content : PageContent) (links : List String) (opts : Opts) : List String :=
  ["<!DOCTYPE html>\n", "<html>\n", "<head>\n",
   "<title>" ++ content.title ++ "</title>\n",
   "<link rel=\"stylesheet\" type=\"text/css\" href=\"" ++ LSST_FONTS ++ "\" />",
   "<link rel=\"stylesheet\" type=\"text/css\" href=\""
     ++ baseStr opts.base ++ "/css/default.css\" media=\"screen\" />",
   "</head>", "<body>\n"]
  ++ (match content.heading with
      | some h => ["<h2>" ++ h ++ "</h2>\n"]
      | none => [])
  ++ linkLines content links
  ++ ["</body>\n", "</html>\n"]

/-- `write_html_index_file` (lines 117-159): write the rendered template to
`os.path.join(path, INDEX_FILE)`. -/
def write_html_index_file (path : List String) (content : PageContent)
    (links : List String) (opts : Opts) : FsEvent :=
  FsEvent.writeFile (path ++ [INDEX_FILE]) (indexTemplate content links opts)

/-- The `for kitem, vitem in items.items()` loop of `make_html`
(lines 111-115): per sub-key, ensure its directory and write its index. -/
def make_html_sub (save_path : List String) (opts : Opts) : SubMap → List FsEvent
  | [] => []
  | (kitem, vitem) :: rest =>
    FsEvent.mkdirs (save_path ++ [kitem])
      :: write_html_index_file (save_path ++ [kitem])
           { title := kitem, heading := some kitem, link := true } vitem opts
      :: make_html_sub save_path opts rest

/-- `make_html` (lines 94-115): ensure the key's directory, write its index
listing the sub-keys, then handle every sub-key. -/
def make_html (path : List String) (key : String) (items : SubMap) (opts : Opts) :
    List FsEvent :=
  FsEvent.mkdirs (path ++ [key])
    :: write_html_index_file (path ++ [key])
         { title := "SAL Topics for " ++ pyCapitalize key, heading := none, link := false }
         (items.map Prod.fst) opts
    :: make_html_sub (path ++ [key]) opts items

/-- The `for dirkey in artifacts` loop of `main` (lines 177-178). -/
def main_loop (web_dir : List String) (opts : Opts) : ArtifactMap → List FsEvent
  | [] => []
  | (dirkey, items) :: rest =>
    make_html web_dir dirkey items opts ++ main_loop web_dir opts rest

/-- The filesystem events of `main` (lines 161-178): the front-page index is
written to `web_dir = out_path ++ [OUTPUT_LOCATION]` first (with no
directory-creation step), then `make_html` runs for every top-level key. -/
def mainEvents (artifacts : ArtifactMap) (opts : Opts) (out_path : List String) :
    List FsEvent :=
  write_html_index_file (out_path ++ [OUTPUT_LOCATION])
      { title := "SAL Topics Frontpage", heading := some "Version of SAL Topics",
        link := false }
      (artifacts.map Prod.fst) opts
    :: main_loop (out_path ++ [OUTPUT_LOCATION]) opts artifacts

/-- Result of an external command invocation via `subprocess.run`: the exit
status and the stdout lines (after splitting on newlines). -/
structure CmdResult where
  exitCode : Int
  stdout : List String
deriving DecidableEq

/-- What one run of `main` produces. -/
structure MainResult where
  events : List FsEvent
  syncInvoked : Bool
  echoed : List String
deriving DecidableEq

/-- `main` (lines 161-185): default the base URL, build the Artifact Map
from the listing lines, emit the site-builder events, and, when syncing,
invoke the sync command — whose `exitCode` is never inspected; its stdout
lines are echoed only when `verbose > 0`. -/
def mainModel (lines : List String) (syncRes : CmdResult) (opts : Opts)
    (out_path : List String) : Except String MainResult :=
  let opts2 : Opts := { opts with base := some (opts.base.getD BUCKET_WEBSITE) }
  match get_bucket_directories lines with
  | Except.error e => Except.error e
  | Except.ok artifacts =>
    Except.ok
      { events := mainEvents artifacts opts2 out_path,
        syncInvoked := opts2.sync,
        echoed := if opts2.sync ∧ opts2.verbose > 0 then syncRes.stdout else [] }

/-! ## Operational meaning of the events -/

/-- All the directories `os.makedirs p` brings into existence: every
initial segment of `p` (including `p` itself). -/
def pathChain (p : List String) : List (List String) :=
  (List.range (p.length + 1)).map (fun n => p.take n)

/-- The directory containing a path. -/
def parentDir (p : List String) : List String := p.dropLast

/-- Run the events over a set of existing directories.  `mkdirs` adds the
whole chain of the path (idempotent); `writeFile` requires the parent
directory to exist, failing (`none`) otherwise — the behaviour of
`open(..., 'w')` on a missing directory. -/
def runEvents (dirs : List (List String)) : List FsEvent → Option (List (List String))
  | [] => some dirs
  | FsEvent.mkdirs p :: rest => runEvents (dirs ++ pathChain p) rest
  | FsEvent.writeFile p _ :: rest =>
    if parentDir p ∈ dirs then runEvents dirs rest else none

/-- How many events create exactly the directory `p`. -/
def countMkdirs (p : List String) : List FsEvent → Nat
  | [] => 0
  | FsEvent.mkdirs q :: rest => (if q = p then 1 else 0) + countMkdirs p rest
  | FsEvent.writeFile _ _ :: rest => countMkdirs p rest

/-- The contents written to the file at `p`, in order. -/
def writesTo (p : List String) : List FsEvent → List (List String)
  | [] => []
  | FsEvent.mkdirs _ :: rest => writesTo p rest
  | FsEvent.writeFile q c :: rest =>
    if q = p then c :: writesTo p rest else writesTo p rest

/-! ## Spec-side projections of a value list -/

/-- The leaves a list of extracted values contributes to the pair `(a, b)`:
third segments of the values whose first two segments are `a` and `b`,
in the order received. -/
def leafProj : List String → String → String → List String
  | [], _, _ => []
  | v :: rest, a, b =>
    match pySplitChar '/' v with
    | x :: y :: z :: _ =>
      if x = a ∧ y = b then z :: leafProj rest a b else leafProj rest a b
    | _ => leafProj rest a b

/-- Does some value have `a` as its first segment? -/
def anyKeyV : List String → String → Bool
  | [], _ => false
  | v :: rest, a =>
    match pySplitChar '/' v with
    | x :: _ => if x = a then true else anyKeyV rest a
    | [] => anyKeyV rest a

/-- Does some value have `(a, b)` as its first two segments? -/
def anySubV : List String → String → String → Bool
  | [], _, _ => false
  | v :: rest, a, b =>
    match pySplitChar '/' v with
    | x :: y :: _ => if x = a ∧ y = b then true else anySubV rest a b
    | _ => anySubV rest a b

/-! ## Lemmas about the map accumulator -/

/-- Sanity: the empty line produced by the trailing newline of the listing
output extracts to the sentinel `b` (the residue of the `b''` bytes repr). -/
theorem extractValue_empty_line : extractValue "" = "b" := by decide

/-- Sanity: a standard listing line extracts to its final field. -/
theorem extractValue_listing_line :
    extractValue "2021-01-01 00:00:00 123 topicsA/csc1/foo_bar.html"
      = "topicsA/csc1/foo_bar.html" := by decide

/-- Sanity: the example run of the specification. -/
theorem get_bucket_directories_example :
    get_bucket_directories ["2021-01-01 00:00:00 123 topicsA/csc1/foo_bar.html", ""]
      = Except.ok [("topicsA", [("csc1", ["foo_bar.html"])])] := by decide

/-- Sanity: the exclusion test sees substrings even mid-segment. -/
theorem excludeMatch_mid_segment : excludeMatch "a/b/my_images_file.html" = true := by decide

theorem alGet_insertSub_self (sm : SubMap) (b c : String) :
    alGet (insertSub sm b c) b = some ((alGet sm b).getD [] ++ [c]) := by
  induction sm with
  | nil => simp [insertSub, alGet]
  | cons p rest ih =>
    obtain ⟨k, ls⟩ := p
    by_cases h : k = b
    · subst h; simp [insertSub, alGet]
    · simp [insertSub, alGet, h, ih]

theorem alGet_insertSub_ne (sm : SubMap) (b c y : String) (hy : y ≠ b) :
    alGet (insertSub sm b c) y = alGet sm y := by
  have hby : ¬b = y := fun h => hy h.symm
  induction sm with
  | nil => simp [insertSub, alGet, hby]
  | cons p rest ih =>
    obtain ⟨k, ls⟩ := p
    by_cases h : k = b
    · subst h; simp [insertSub, alGet, hby]
    · simp [insertSub, alGet, h, ih]

theorem alGet_insertLeaf_self (m : ArtifactMap) (a b c : String) :
    alGet (insertLeaf m a b c) a = some (insertSub ((alGet m a).getD []) b c) := by
  induction m with
  | nil => simp [insertLeaf, alGet]
  | cons p rest ih =>
    obtain ⟨k, sm⟩ := p
    by_cases h : k = a
    · subst h; simp [insertLeaf, alGet]
    · simp [insertLeaf, alGet, h, ih]

theorem alGet_insertLeaf_ne (m : ArtifactMap) (a b c x : String) (hx : x ≠ a) :
    alGet (insertLeaf m a b c) x = alGet m x := by
  have hax : ¬a = x := fun h => hx h.symm
  induction m with
  | nil => simp [insertLeaf, alGet, hax]
  | cons p rest ih =>
    obtain ⟨k, sm⟩ := p
    by_cases h : k = a
    · subst h; simp [insertLeaf, alGet, hax]
    · simp [insertLeaf, alGet, h, ih]

theorem leavesIn_insertLeaf (m : ArtifactMap) (a b c x y : String) :
    leavesIn (insertLeaf m a b c) x y =
      if x = a ∧ y = b then leavesIn m x y ++ [c] else leavesIn m x y := by
  by_cases hx : x = a
  · subst hx
    by_cases hy : y = b
    · subst hy
      simp only [leavesIn, alGet_insertLeaf_self, alGet_insertSub_self]
      cases hma : alGet m x <;> simp [alGet]
    · simp only [leavesIn, alGet_insertLeaf_self, alGet_insertSub_ne _ _ _ _ hy]
      cases hma : alGet m x <;> simp [alGet, hy]
  · simp [leavesIn, alGet_insertLeaf_ne _ _ _ _ _ hx, hx]

theorem keyPresent_insertLeaf (m : ArtifactMap) (a b c x : String) :
    keyPresent (insertLeaf m a b c) x = if x = a then true else keyPresent m x := by
  by_cases hx : x = a
  · subst hx; simp [keyPresent, alGet_insertLeaf_self]
  · simp [keyPresent, alGet_insertLeaf_ne _ _ _ _ _ hx, hx]

theorem subPresent_insertLeaf (m : ArtifactMap) (a b c x y : String) :
    subPresent (insertLeaf m a b c) x y =
      if x = a ∧ y = b then true else subPresent m x y := by
  by_cases hx : x = a
  · subst hx
    by_cases hy : y = b
    · subst hy
      simp only [subPresent, alGet_insertLeaf_self, alGet_insertSub_self]
      simp
    · simp only [subPresent, alGet_insertLeaf_self, alGet_insertSub_ne _ _ _ _ hy]
      cases hma : alGet m x <;> simp [alGet, hy]
  · simp [subPresent, alGet_insertLeaf_ne _ _ _ _ _ hx, hx]

theorem buildArtifacts_ok (vs : List String) :
    ∀ m0 : ArtifactMap,
      (∀ v ∈ vs, excludeMatch v = false ∧ v ≠ "b" ∧ 3 ≤ (pySplitChar '/' v).length) →
      ∃ mf, buildArtifacts m0 vs = Except.ok mf ∧
        (∀ a b, leavesIn mf a b = leavesIn m0 a b ++ leafProj vs a b) ∧
        (∀ a, keyPresent mf a = (keyPresent m0 a || anyKeyV vs a)) ∧
        (∀ a b, subPresent mf a b = (subPresent m0 a b || anySubV vs a b)) := by
  induction vs with
  | nil =>
    intro m0 _
    exact ⟨m0, rfl, by simp [leafProj], by simp [anyKeyV], by simp [anySubV]⟩
  | cons v rest ih =>
    intro m0 h
    obtain ⟨hex, hb, hlen⟩ := h v (List.mem_cons_self v rest)
    rcases hsp : pySplitChar '/' v with _ | ⟨x, _ | ⟨y, _ | ⟨z, r⟩⟩⟩
    · rw [hsp] at hlen; simp at hlen
    · rw [hsp] at hlen; simp at hlen
    · rw [hsp] at hlen; simp at hlen
    · have hbeq : (v == "b") = false := beq_eq_false_iff_ne.mpr hb
      have hproc : processValues m0 v = Except.ok (insertLeaf m0 x y z) := by
        simp [processValues, hex, hbeq, hsp]
      obtain ⟨mf, hbuild, hleaves, hkeys, hsubs⟩ :=
        ih (insertLeaf m0 x y z) (fun u hu => h u (List.mem_cons_of_mem _ hu))
      refine ⟨mf, ?_, ?_, ?_, ?_⟩
      · simp [buildArtifacts, hproc, hbuild]
      · intro a b
        rw [hleaves, leavesIn_insertLeaf]
        simp only [leafProj, hsp]
        by_cases h1 : x = a
        · subst h1
          by_cases h2 : y = b
          · subst h2; simp
          · have h2' : ¬b = y := fun hh => h2 hh.symm
            simp [h2, h2']
        · have h1' : ¬a = x := fun hh => h1 hh.symm
          simp [h1, h1']
      · intro a
        rw [hkeys, keyPresent_insertLeaf]
        simp only [anyKeyV, hsp]
        by_cases h1 : x = a
        · subst h1; simp
        · have h1' : ¬a = x := fun hh => h1 hh.symm
          simp [h1, h1']
      · intro a b
        rw [hsubs, subPresent_insertLeaf]
        simp only [anySubV, hsp]
        by_cases h1 : x = a
        · subst h1
          by_cases h2 : y = b
          · subst h2; simp
          · have h2' : ¬b = y := fun hh => h2 hh.symm
            simp [h2, h2']
        · have h1' : ¬a = x := fun hh => h1 hh.symm
          simp [h1, h1']

theorem processValues_error_eq (m : ArtifactMap) (u e : String)
    (h : processValues m u = Except.error e) :
    e = "IndexError: list index out of range" := by
  unfold processValues at h
  split at h
  · cases h
  · split at h
    · cases h
    · injection h with h
      exact h.symm

theorem processValues_short_error (m : ArtifactMap) (v : String)
    (hex : excludeMatch v = false) (hb : v ≠ "b")
    (hlen : (pySplitChar '/' v).length < 3) :
    processValues m v = Except.error "IndexError: list index out of range" := by
  have hbeq : (v == "b") = false := beq_eq_false_iff_ne.mpr hb
  rcases hsp : pySplitChar '/' v with _ | ⟨x, _ | ⟨y, _ | ⟨z, r⟩⟩⟩
  · simp [processValues, hex, hbeq, hsp]
  · simp [processValues, hex, hbeq, hsp]
  · simp [processValues, hex, hbeq, hsp]
  · rw [hsp] at hlen
    simp at hlen
    omega

theorem buildArtifacts_error_of_mem (vs : List String) :
    ∀ (m : ArtifactMap) (v : String), v ∈ vs →
      excludeMatch v = false → v ≠ "b" → (pySplitChar '/' v).length < 3 →
      buildArtifacts m vs = Except.error "IndexError: list index out of range" := by
  induction vs with
  | nil => intro m v hv; exact absurd hv (List.not_mem_nil v)
  | cons u rest ih =>
    intro m v hv hex hb hlen
    rcases List.mem_cons.mp hv with rfl | hv2
    · simp [buildArtifacts, processValues_short_error m v hex hb hlen]
    · cases hp : processValues m u with
      | ok m2 => simp [buildArtifacts, hp, ih m2 v hv2 hex hb hlen]
      | error e =>
        rw [processValues_error_eq m u e hp] at hp
        simp [buildArtifacts, hp]

theorem processValues_ok_cases (m m2 : ArtifactMap) (v : String)
    (h : processValues m v = Except.ok m2) :
    m2 = m ∨ ∃ x y z, m2 = insertLeaf m x y z := by
  unfold processValues at h
  split at h
  · injection h with h
    exact Or.inl h.symm
  · split at h
    · rename_i i0 i1 i2 tail heq
      injection h with h
      exact Or.inr ⟨i0, i1, i2, h.symm⟩
    · cases h

theorem buildArtifacts_preserves (P : ArtifactMap → Prop)
    (hP : ∀ m a b c, P m → P (insertLeaf m a b c)) (vs : List String) :
    ∀ m0 mf, P m0 → buildArtifacts m0 vs = Except.ok mf → P mf := by
  induction vs with
  | nil =>
    intro m0 mf h0 hb
    injection hb with hb
    exact hb ▸ h0
  | cons v rest ih =>
    intro m0 mf h0 hb
    cases hp : processValues m0 v with
    | ok m2 =>
      simp only [buildArtifacts, hp] at hb
      rcases processValues_ok_cases m0 m2 v hp with h2 | ⟨x, y, z, h2⟩
      · exact ih m0 mf h0 (h2 ▸ hb)
      · exact ih (insertLeaf m0 x y z) mf (hP m0 x y z h0) (h2 ▸ hb)
    | error e => simp [buildArtifacts, hp] at hb

theorem insertSub_ne_nil (sm : SubMap) (b c : String) : insertSub sm b c ≠ [] := by
  cases sm with
  | nil => simp [insertSub]
  | cons p rest =>
    obtain ⟨k, ls⟩ := p
    by_cases h : k = b <;> simp [insertSub, h]

theorem insertSub_leaves_ne_nil (sm : SubMap) (b c : String)
    (h : ∀ q ∈ sm, q.2 ≠ []) :
    ∀ q ∈ insertSub sm b c, q.2 ≠ [] := by
  induction sm with
  | nil =>
    intro q hq
    simp [insertSub] at hq
    subst hq
    simp
  | cons p rest ih =>
    obtain ⟨k, ls⟩ := p
    intro q hq
    by_cases hk : k = b
    · rw [insertSub, if_pos hk] at hq
      rcases List.mem_cons.mp hq with rfl | hq2
      · simp
      · exact h q (List.mem_cons_of_mem _ hq2)
    · rw [insertSub, if_neg hk] at hq
      rcases List.mem_cons.mp hq with rfl | hq2
      · exact h (k, ls) (List.mem_cons_self _ _)
      · exact ih (fun q hq => h q (List.mem_cons_of_mem _ hq)) q hq2

theorem insertLeaf_nonempty (m : ArtifactMap) (a b c : String)
    (h : ∀ p ∈ m, p.2 ≠ [] ∧ ∀ q ∈ p.2, q.2 ≠ []) :
    ∀ p ∈ insertLeaf m a b c, p.2 ≠ [] ∧ ∀ q ∈ p.2, q.2 ≠ [] := by
  induction m with
  | nil =>
    intro p hp
    simp [insertLeaf] at hp
    subst hp
    exact ⟨insertSub_ne_nil [] b c, insertSub_leaves_ne_nil [] b c (by simp)⟩
  | cons e rest ih =>
    obtain ⟨k, sm⟩ := e
    intro p hp
    by_cases hk : k = a
    · rw [insertLeaf, if_pos hk] at hp
      rcases List.mem_cons.mp hp with rfl | hp2
      · refine ⟨insertSub_ne_nil sm b c, insertSub_leaves_ne_nil sm b c ?_⟩
        exact (h (k, sm) (List.mem_cons_self _ _)).2
      · exact h p (List.mem_cons_of_mem _ hp2)
    · rw [insertLeaf, if_neg hk] at hp
      rcases List.mem_cons.mp hp with rfl | hp2
      · exact h (k, sm) (List.mem_cons_self _ _)
      · exact ih (fun p hp => h p (List.mem_cons_of_mem _ hp)) p hp2

theorem buildArtifacts_filter (vs : List String) :
    ∀ m : ArtifactMap,
      buildArtifacts m (vs.filter (fun v => !(excludeMatch v || v == "b"))) =
        buildArtifacts m vs := by
  induction vs with
  | nil => intro m; rfl
  | cons v rest ih =>
    intro m
    cases hc : (excludeMatch v || v == "b") with
    | true =>
      have hskip : processValues m v = Except.ok m := by simp [processValues, hc]
      rw [List.filter_cons_of_neg (by rw [hc]; decide), ih]
      simp [buildArtifacts, hskip]
    | false =>
      rw [List.filter_cons_of_pos (by rw [hc]; decide)]
      simp only [buildArtifacts]
      cases hp : processValues m v with
      | ok m2 =>
        simp only [hp]
        exact ih m2
      | error e => simp only [hp]

theorem map_filter_extract (P : String → Bool) (lines : List String) :
    (lines.filter (fun l => P (extractValue l))).map extractValue =
      (lines.map extractValue).filter P := by
  induction lines with
  | nil => rfl
  | cons l rest ih =>
    cases hp : P (extractValue l) <;> simp [List.filter_cons, hp, ih]

/-- **C2** — For any listing output whose extracted path values each split
into exactly three segments, contain no excluded substring and are not the
sentinel `b`, `get_bucket_directories` succeeds and the resulting Artifact
Map holds exactly the corresponding entries: a top-level key is present
exactly when some value starts with it, a sub-key exactly when some value
has that (key, sub-key) pair, and the leaf list of each pair is exactly the
third segments of the matching values in the order the lines arrived. -/
theorem artifact_map_exact_entries (lines : List String)
    (h : ∀ l ∈ lines, excludeMatch (extractValue l) = false ∧ extractValue l ≠ "b" ∧
      (pySplitChar '/' (extractValue l)).length = 3) :
    ∃ m, get_bucket_directories lines = Except.ok m ∧
      (∀ a b, leavesIn m a b = leafProj (lines.map extractValue) a b) ∧
      (∀ a, keyPresent m a = anyKeyV (lines.map extractValue) a) ∧
      (∀ a b, subPresent m a b = anySubV (lines.map extractValue) a b) := by
  have h2 : ∀ v ∈ lines.map extractValue, excludeMatch v = false ∧ v ≠ "b" ∧
      3 ≤ (pySplitChar '/' v).length := by
    intro v hv
    obtain ⟨l, hl, rfl⟩ := List.mem_map.mp hv
    obtain ⟨ha, hb, hc⟩ := h l hl
    exact ⟨ha, hb, by omega⟩
  obtain ⟨m, hb, hl2, hk, hs⟩ := buildArtifacts_ok (lines.map extractValue) [] h2
  refine ⟨m, hb, ?_, ?_, ?_⟩
  · intro a b
    rw [hl2]
    simp [leavesIn, alGet]
  · intro a
    rw [hk]
    simp [keyPresent, alGet]
  · intro a b
    rw [hs]
    simp [subPresent, alGet]

theorem artifact_map_exact_entries_witness :
    leavesIn [("topicsA", [("csc1", ["foo_bar.html", "zap.html"])])] "topicsA" "csc1"
      = leafProj (["x 1 topicsA/csc1/foo_bar.html", "x 2 topicsA/csc1/zap.html"].map
          extractValue) "topicsA" "csc1" := by
  obtain ⟨m, hok, hl, _, _⟩ := artifact_map_exact_entries
    ["x 1 topicsA/csc1/foo_bar.html", "x 2 topicsA/csc1/zap.html"] (by decide)
  have hg : get_bucket_directories
      ["x 1 topicsA/csc1/foo_bar.html", "x 2 topicsA/csc1/zap.html"]
      = Except.ok [("topicsA", [("csc1", ["foo_bar.html", "zap.html"])])] := by decide
  rw [hg] at hok
  injection hok with hok
  rw [hok]
  exact hl "topicsA" "csc1"

/-- **C3** — Lines whose extracted value contains an excluded substring, or
equals the sentinel `b`, contribute nothing: deleting all of them from the
listing leaves the result of `get_bucket_directories` unchanged, so no key,
sub-key or leaf derived from such a line is ever present. -/
theorem excluded_lines_contribute_nothing (lines : List String) :
    get_bucket_directories lines =
      get_bucket_directories (lines.filter
        (fun l => !(excludeMatch (extractValue l) || extractValue l == "b"))) := by
  unfold get_bucket_directories
  rw [map_filter_extract (fun v => !(excludeMatch v || v == "b")) lines,
    buildArtifacts_filter]

/-- **C6** — A listing line whose extracted value passes the sentinel and
exclusion checks but splits into fewer than three segments makes
`get_bucket_directories` raise the indexing fault: the run aborts with an
error instead of producing an Artifact Map. -/
theorem malformed_line_aborts (lines : List String) (l : String)
    (hmem : l ∈ lines)
    (hex : excludeMatch (extractValue l) = false)
    (hb : extractValue l ≠ "b")
    (hlen : (pySplitChar '/' (extractValue l)).length < 3) :
    get_bucket_directories lines = Except.error "IndexError: list index out of range" :=
  buildArtifacts_error_of_mem (lines.map extractValue) [] (extractValue l)
    (List.mem_map_of_mem extractValue hmem) hex hb hlen

theorem malformed_line_aborts_witness :
    get_bucket_directories ["2021-01-01 00:00:00 123 topicsA/foo"]
      = Except.error "IndexError: list index out of range" :=
  malformed_line_aborts ["2021-01-01 00:00:00 123 topicsA/foo"]
    "2021-01-01 00:00:00 123 topicsA/foo" (by decide) (by decide) (by decide) (by decide)

/-- **C8** — In every Artifact Map actually returned by
`get_bucket_directories`, no key maps to an empty structure: every top-level
key holds a non-empty sub-map and every sub-key holds a non-empty leaf
list (a sub-key is only created at the moment a leaf is appended to it). -/
theorem leaf_lists_nonempty (lines : List String) (m : ArtifactMap)
    (h : get_bucket_directories lines = Except.ok m) :
    ∀ p ∈ m, p.2 ≠ [] ∧ ∀ q ∈ p.2, q.2 ≠ [] :=
  buildArtifacts_preserves (fun m => ∀ p ∈ m, p.2 ≠ [] ∧ ∀ q ∈ p.2, q.2 ≠ [])
    (fun m a b c hm => insertLeaf_nonempty m a b c hm)
    (lines.map extractValue) [] m (by simp) h

theorem leaf_lists_nonempty_witness :
    ([("csc1", ["foo_bar.html"])] : SubMap) ≠ [] :=
  (leaf_lists_nonempty ["x 1 topicsA/csc1/foo_bar.html"]
    [("topicsA", [("csc1", ["foo_bar.html"])])] (by decide)
    ("topicsA", [("csc1", ["foo_bar.html"])]) (by decide)).1

theorem listStartsWith_iff (p : List Char) : ∀ l : List Char,
    listStartsWith p l = true ↔ ∃ r, l = p ++ r := by
  induction p with
  | nil => intro l; simp [listStartsWith]
  | cons a ps ih =>
    intro l
    cases l with
    | nil =>
      simp [listStartsWith]
    | cons c cs =>
      rw [listStartsWith]
      constructor
      · intro h
        rw [Bool.and_eq_true] at h
        obtain ⟨hac, hrest⟩ := h
        obtain ⟨r, hr⟩ := (ih cs).mp hrest
        exact ⟨r, by rw [hr, beq_iff_eq.mp hac]; rfl⟩
      · rintro ⟨r, hr⟩
        injection hr with h1 h2
        subst h1
        rw [Bool.and_eq_true]
        exact ⟨beq_self_eq_true _, (ih cs).mpr ⟨r, h2⟩⟩

theorem listContainsSub_iff (pat : List Char) : ∀ l : List Char,
    listContainsSub pat l = true ↔ ∃ l1 l2, l = l1 ++ pat ++ l2 := by
  intro l
  induction l with
  | nil =>
    rw [listContainsSub, listStartsWith_iff]
    constructor
    · rintro ⟨r, hr⟩
      exact ⟨[], r, by simpa using hr⟩
    · rintro ⟨l1, l2, h⟩
      have h2 := h.symm
      rw [List.append_assoc] at h2
      obtain ⟨h3, h4⟩ := List.append_eq_nil.mp h2
      obtain ⟨h5, h6⟩ := List.append_eq_nil.mp h4
      exact ⟨[], by simp [h5]⟩
  | cons c cs ih =>
    rw [listContainsSub, Bool.or_eq_true, listStartsWith_iff, ih]
    constructor
    · rintro (⟨r, hr⟩ | ⟨l1, l2, hl⟩)
      · exact ⟨[], r, by simpa using hr⟩
      · exact ⟨c :: l1, l2, by rw [List.append_assoc, List.cons_append, ← List.append_assoc, hl]⟩
    · rintro ⟨l1, l2, hl⟩
      cases l1 with
      | nil => exact Or.inl ⟨l2, by simpa using hl⟩
      | cons a l1t =>
        rw [List.append_assoc, List.cons_append] at hl
        injection hl with h1 h2
        rw [← List.append_assoc] at h2
        exact Or.inr ⟨l1t, l2, h2⟩

theorem strContains_iff (s pat : String) :
    strContains s pat = true ↔ ∃ l r : List Char, s.data = l ++ pat.data ++ r :=
  listContainsSub_iff pat.data s.data

theorem excludeMatch_iff (v : String) :
    excludeMatch v = true ↔
      ∃ e ∈ LS_EXCLUDES, ∃ l r : List Char, v.data = l ++ e.data ++ r := by
  unfold excludeMatch
  rw [List.any_eq_true]
  constructor
  · rintro ⟨e, he, hc⟩
    exact ⟨e, he, (strContains_iff v e).mp hc⟩
  · rintro ⟨e, he, hc⟩
    exact ⟨e, he, (strContains_iff v e).mpr hc⟩

/-- **C9 (counterexample)** — The extracted value `topicsA` is not the
sentinel and contains none of the excluded substrings, yet it is not
inserted into any Artifact Map: the run aborts with the indexing fault, and
no map is produced at all.  This refutes the claim's converse direction
(the claim forgot the three-segment requirement). -/
theorem nonexcluded_value_not_inserted_cex :
    extractValue "2021-01-01 00:00:00 0 topicsA" = "topicsA" ∧
    excludeMatch "topicsA" = false ∧ "topicsA" ≠ "b" ∧
    get_bucket_directories ["2021-01-01 00:00:00 0 topicsA"]
      = Except.error "IndexError: list index out of range" := by
  refine ⟨by decide, by decide, by decide, ?_⟩
  exact malformed_line_aborts _ "2021-01-01 00:00:00 0 topicsA"
    (by decide) (by decide) (by decide) (by decide)

/-- **C9 (amended)** — The exclusion test is plain substring containment on
the extracted value: `excludeMatch` holds exactly when one of the four
excluded strings occurs anywhere inside it (including mid-segment).
Conversely, every value that is not the sentinel, contains none of these
substrings *and splits into at least three path segments* is inserted into
the Artifact Map: its first segment becomes a key, its second a sub-key,
and its third is appended to that pair's leaf list.  (Values with fewer
segments abort the run instead — see C6.) -/
theorem exclusion_substring_and_insertion (m : ArtifactMap) (v : String) :
    (excludeMatch v = true ↔
      ∃ e ∈ LS_EXCLUDES, ∃ l r : List Char, v.data = l ++ e.data ++ r) ∧
    (excludeMatch v = false → v ≠ "b" →
      ∀ x y z rest, pySplitChar '/' v = x :: y :: z :: rest →
        processValues m v = Except.ok (insertLeaf m x y z) ∧
        leavesIn (insertLeaf m x y z) x y = leavesIn m x y ++ [z]) := by
  refine ⟨excludeMatch_iff v, ?_⟩
  intro hex hb x y z rest hsp
  have hbeq : (v == "b") = false := beq_eq_false_iff_ne.mpr hb
  refine ⟨by simp [processValues, hex, hbeq, hsp], ?_⟩
  rw [leavesIn_insertLeaf]
  simp

theorem exclusion_substring_and_insertion_witness :
    processValues [] "a1/b2/c3" = Except.ok (insertLeaf [] "a1" "b2" "c3") ∧
      leavesIn (insertLeaf [] "a1" "b2" "c3") "a1" "b2"
        = leavesIn [] "a1" "b2" ++ ["c3"] :=
  (exclusion_substring_and_insertion [] "a1/b2/c3").2 (by decide) (by decide)
    "a1" "b2" "c3" [] (by decide)

/-- **C10** — A value that passes the filters and splits into more than
three segments is processed using only its first three segments: the result
is exactly `insertLeaf m x y z`, with the deeper segments neither recorded
anywhere nor causing an error. -/
theorem extra_segments_dropped (m : ArtifactMap) (v x y z : String) (rest : List String)
    (hex : excludeMatch v = false) (hb : v ≠ "b")
    (hsp : pySplitChar '/' v = x :: y :: z :: rest) :
    processValues m v = Except.ok (insertLeaf m x y z) := by
  have hbeq : (v == "b") = false := beq_eq_false_iff_ne.mpr hb
  simp [processValues, hex, hbeq, hsp]

theorem extra_segments_dropped_witness :
    processValues [] "a/b/c/d/e" = Except.ok (insertLeaf [] "a" "b" "c") :=
  extra_segments_dropped [] "a/b/c/d/e" "a" "b" "c" ["d", "e"]
    (by decide) (by decide) (by decide)

/-! ## Nodup invariant of the map (dict keys are unique) -/

theorem insertSub_keys (sm : SubMap) (b c : String) :
    (insertSub sm b c).map Prod.fst =
      if b ∈ sm.map Prod.fst then sm.map Prod.fst else sm.map Prod.fst ++ [b] := by
  induction sm with
  | nil => simp [insertSub]
  | cons p rest ih =>
    obtain ⟨k, ls⟩ := p
    by_cases hk : k = b
    · subst hk
      simp [insertSub]
    · have hbk : ¬b = k := fun h => hk h.symm
      by_cases hmem : b ∈ rest.map Prod.fst <;>
        simp [insertSub, hk, hbk, ih, hmem]

theorem insertSub_keysNodup (sm : SubMap) (b c : String)
    (h : (sm.map Prod.fst).Nodup) : ((insertSub sm b c).map Prod.fst).Nodup := by
  rw [insertSub_keys]
  by_cases hmem : b ∈ sm.map Prod.fst
  · simp [hmem, h]
  · simp only [hmem, if_neg]
    exact List.nodup_append.mpr ⟨h, List.nodup_singleton b,
      fun a ha hb => hmem ((List.mem_singleton.mp hb) ▸ ha)⟩

theorem insertLeaf_keys (m : ArtifactMap) (a b c : String) :
    (insertLeaf m a b c).map Prod.fst =
      if a ∈ m.map Prod.fst then m.map Prod.fst else m.map Prod.fst ++ [a] := by
  induction m with
  | nil => simp [insertLeaf]
  | cons p rest ih =>
    obtain ⟨k, sm⟩ := p
    by_cases hk : k = a
    · subst hk
      simp [insertLeaf]
    · have hak : ¬a = k := fun h => hk h.symm
      by_cases hmem : a ∈ rest.map Prod.fst <;>
        simp [insertLeaf, hk, hak, ih, hmem]

theorem insertLeaf_keysNodup_top (m : ArtifactMap) (a b c : String)
    (h : (m.map Prod.fst).Nodup) : ((insertLeaf m a b c).map Prod.fst).Nodup := by
  rw [insertLeaf_keys]
  by_cases hmem : a ∈ m.map Prod.fst
  · simp [hmem, h]
  · simp only [hmem, if_neg]
    exact List.nodup_append.mpr ⟨h, List.nodup_singleton a,
      fun x hx hb => hmem ((List.mem_singleton.mp hb) ▸ hx)⟩

theorem insertLeaf_subNodup (m : ArtifactMap) (a b c : String)
    (h : ∀ p ∈ m, ((p.2).map Prod.fst).Nodup) :
    ∀ p ∈ insertLeaf m a b c, ((p.2).map Prod.fst).Nodup := by
  induction m with
  | nil =>
    intro p hp
    simp [insertLeaf] at hp
    subst hp
    simp [insertSub]
  | cons e rest ih =>
    obtain ⟨k, sm⟩ := e
    intro p hp
    by_cases hk : k = a
    · rw [insertLeaf, if_pos hk] at hp
      rcases List.mem_cons.mp hp with rfl | hp2
      · exact insertSub_keysNodup sm b c (h (k, sm) (List.mem_cons_self _ _))
      · exact h p (List.mem_cons_of_mem _ hp2)
    · rw [insertLeaf, if_neg hk] at hp
      rcases List.mem_cons.mp hp with rfl | hp2
      · exact h (k, sm) (List.mem_cons_self _ _)
      · exact ih (fun p hp => h p (List.mem_cons_of_mem _ hp)) p hp2

theorem get_bucket_directories_nodup (lines : List String) (m : ArtifactMap)
    (h : get_bucket_directories lines = Except.ok m) :
    (m.map Prod.fst).Nodup ∧ ∀ p ∈ m, ((p.2).map Prod.fst).Nodup :=
  buildArtifacts_preserves
    (fun m => (m.map Prod.fst).Nodup ∧ ∀ p ∈ m, ((p.2).map Prod.fst).Nodup)
    (fun m a b c hm =>
      ⟨insertLeaf_keysNodup_top m a b c hm.1, insertLeaf_subNodup m a b c hm.2⟩)
    (lines.map extractValue) [] m (by simp) h


/-! ## Counting directory creations and index writes -/

theorem countMkdirs_append (p : List String) (l1 l2 : List FsEvent) :
    countMkdirs p (l1 ++ l2) = countMkdirs p l1 + countMkdirs p l2 := by
  induction l1 with
  | nil => simp [countMkdirs]
  | cons e rest ih =>
    cases e with
    | mkdirs q => simp [countMkdirs, ih, Nat.add_assoc]
    | writeFile q c => simp [countMkdirs, ih]

theorem writesTo_append (p : List String) (l1 l2 : List FsEvent) :
    writesTo p (l1 ++ l2) = writesTo p l1 ++ writesTo p l2 := by
  induction l1 with
  | nil => simp [writesTo]
  | cons e rest ih =>
    cases e with
    | mkdirs q => simp [writesTo, ih]
    | writeFile q c => by_cases h : q = p <;> simp [writesTo, h, ih]

theorem snoc_eq_snoc_iff (xs ys : List String) (a b : String) :
    xs ++ [a] = ys ++ [b] ↔ xs = ys ∧ a = b := by
  constructor
  · intro h
    obtain ⟨h3, h4⟩ := List.append_inj' h rfl
    injection h4 with h5 _
    exact ⟨h3, h5⟩
  · rintro ⟨rfl, rfl⟩
    rfl

theorem ne_of_length_ne {xs ys : List String} (h : xs.length ≠ ys.length) : xs ≠ ys :=
  fun he => h (he ▸ rfl)

theorem countMkdirs_sub_far (sp : List String) (opts : Opts) (sm : SubMap)
    (q : List String) (h : ∀ x, sp ++ [x] ≠ q) :
    countMkdirs q (make_html_sub sp opts sm) = 0 := by
  induction sm with
  | nil => rfl
  | cons e rest ih =>
    obtain ⟨k, ls⟩ := e
    simp only [make_html_sub, write_html_index_file, countMkdirs]
    rw [if_neg (h k), ih]

theorem countMkdirs_sub_notkey (sp : List String) (opts : Opts) (sm : SubMap)
    (sk : String) (h : sk ∉ sm.map Prod.fst) :
    countMkdirs (sp ++ [sk]) (make_html_sub sp opts sm) = 0 := by
  induction sm with
  | nil => rfl
  | cons e rest ih =>
    obtain ⟨k, ls⟩ := e
    have hk : k ≠ sk := fun he => h (by simp [he])
    have hne : sp ++ [k] ≠ sp ++ [sk] := fun he => hk ((snoc_eq_snoc_iff _ _ _ _).mp he).2
    have hrest : sk ∉ rest.map Prod.fst := fun he => h (by simp [he])
    simp only [make_html_sub, write_html_index_file, countMkdirs]
    rw [if_neg hne, ih hrest]

theorem countMkdirs_sub_self (sp : List String) (opts : Opts) (sm : SubMap)
    (sk : String) (leaves : List String)
    (hnd : (sm.map Prod.fst).Nodup) (hmem : (sk, leaves) ∈ sm) :
    countMkdirs (sp ++ [sk]) (make_html_sub sp opts sm) = 1 := by
  induction sm with
  | nil => exact absurd hmem (List.not_mem_nil _)
  | cons e rest ih =>
    obtain ⟨k, ls⟩ := e
    rw [List.map_cons, List.nodup_cons] at hnd
    obtain ⟨hknotin, hndrest⟩ := hnd
    rcases List.mem_cons.mp hmem with heq | hmem2
    · injection heq with h1 h2
      subst h1
      simp only [make_html_sub, write_html_index_file, countMkdirs, if_true]
      rw [countMkdirs_sub_notkey sp opts rest sk hknotin]
    · have hsk : sk ∈ rest.map Prod.fst := List.mem_map_of_mem Prod.fst hmem2
      have hk : k ≠ sk := fun he => hknotin (he ▸ hsk)
      have hne : sp ++ [k] ≠ sp ++ [sk] := fun he => hk ((snoc_eq_snoc_iff _ _ _ _).mp he).2
      simp only [make_html_sub, write_html_index_file, countMkdirs]
      rw [if_neg hne, ih hndrest hmem2]

theorem writesTo_sub_far (sp : List String) (opts : Opts) (sm : SubMap)
    (q : List String) (h : ∀ x, (sp ++ [x]) ++ [INDEX_FILE] ≠ q) :
    writesTo q (make_html_sub sp opts sm) = [] := by
  induction sm with
  | nil => rfl
  | cons e rest ih =>
    obtain ⟨k, ls⟩ := e
    simp only [make_html_sub, write_html_index_file, writesTo]
    rw [if_neg (h k), ih]

theorem writesTo_sub_notkey (sp : List String) (opts : Opts) (sm : SubMap)
    (sk : String) (h : sk ∉ sm.map Prod.fst) :
    writesTo ((sp ++ [sk]) ++ [INDEX_FILE]) (make_html_sub sp opts sm) = [] := by
  induction sm with
  | nil => rfl
  | cons e rest ih =>
    obtain ⟨k, ls⟩ := e
    have hk : k ≠ sk := fun he => h (by simp [he])
    have hne : (sp ++ [k]) ++ [INDEX_FILE] ≠ (sp ++ [sk]) ++ [INDEX_FILE] := by
      intro he
      exact hk ((snoc_eq_snoc_iff _ _ _ _).mp ((snoc_eq_snoc_iff _ _ _ _).mp he).1).2
    have hrest : sk ∉ rest.map Prod.fst := fun he => h (by simp [he])
    simp only [make_html_sub, write_html_index_file, writesTo]
    rw [if_neg hne, ih hrest]

theorem writesTo_sub_self (sp : List String) (opts : Opts) (sm : SubMap)
    (sk : String) (leaves : List String)
    (hnd : (sm.map Prod.fst).Nodup) (hmem : (sk, leaves) ∈ sm) :
    writesTo ((sp ++ [sk]) ++ [INDEX_FILE]) (make_html_sub sp opts sm)
      = [indexTemplate { title := sk, heading := some sk, link := true } leaves opts] := by
  induction sm with
  | nil => exact absurd hmem (List.not_mem_nil _)
  | cons e rest ih =>
    obtain ⟨k, ls⟩ := e
    rw [List.map_cons, List.nodup_cons] at hnd
    obtain ⟨hknotin, hndrest⟩ := hnd
    rcases List.mem_cons.mp hmem with heq | hmem2
    · injection heq with h1 h2
      subst h1
      subst h2
      simp only [make_html_sub, write_html_index_file, writesTo, if_true]
      rw [writesTo_sub_notkey sp opts rest sk hknotin]
    · have hsk : sk ∈ rest.map Prod.fst := List.mem_map_of_mem Prod.fst hmem2
      have hk : k ≠ sk := fun he => hknotin (he ▸ hsk)
      have hne : (sp ++ [k]) ++ [INDEX_FILE] ≠ (sp ++ [sk]) ++ [INDEX_FILE] := by
        intro he
        exact hk ((snoc_eq_snoc_iff _ _ _ _).mp ((snoc_eq_snoc_iff _ _ _ _).mp he).1).2
      simp only [make_html_sub, write_html_index_file, writesTo]
      rw [if_neg hne, ih hndrest hmem2]

theorem countMkdirs_make_html_key (web : List String) (opts : Opts) (k0 k : String)
    (sm0 : SubMap) :
    countMkdirs (web ++ [k]) (make_html web k0 sm0 opts) = if k0 = k then 1 else 0 := by
  have hfar : ∀ x, (web ++ [k0]) ++ [x] ≠ web ++ [k] :=
    fun x => ne_of_length_ne (by simp)
  simp only [make_html, write_html_index_file, countMkdirs]
  rw [countMkdirs_sub_far _ _ _ _ hfar]
  by_cases hk : k0 = k
  · subst hk
    rw [if_pos rfl, if_pos rfl]
  · have hne : web ++ [k0] ≠ web ++ [k] := fun he => hk ((snoc_eq_snoc_iff _ _ _ _).mp he).2
    rw [if_neg hne, if_neg hk]

theorem countMkdirs_make_html_subkey_ne (web : List String) (opts : Opts)
    (k0 k sk : String) (sm0 : SubMap) (hk : k0 ≠ k) :
    countMkdirs ((web ++ [k]) ++ [sk]) (make_html web k0 sm0 opts) = 0 := by
  have htop : web ++ [k0] ≠ (web ++ [k]) ++ [sk] := ne_of_length_ne (by simp)
  have hfar : ∀ x, (web ++ [k0]) ++ [x] ≠ (web ++ [k]) ++ [sk] := by
    intro x he
    exact hk ((snoc_eq_snoc_iff _ _ _ _).mp ((snoc_eq_snoc_iff _ _ _ _).mp he).1).2
  simp only [make_html, write_html_index_file, countMkdirs]
  rw [if_neg htop, countMkdirs_sub_far _ _ _ _ hfar]

theorem countMkdirs_make_html_subkey_eq (web : List String) (opts : Opts)
    (k sk : String) (leaves : List String) (sm0 : SubMap)
    (hnd : (sm0.map Prod.fst).Nodup) (hmem : (sk, leaves) ∈ sm0) :
    countMkdirs ((web ++ [k]) ++ [sk]) (make_html web k sm0 opts) = 1 := by
  have htop : web ++ [k] ≠ (web ++ [k]) ++ [sk] := ne_of_length_ne (by simp)
  simp only [make_html, write_html_index_file, countMkdirs]
  rw [if_neg htop, countMkdirs_sub_self _ _ _ _ _ hnd hmem]

theorem writesTo_make_html_far (web : List String) (opts : Opts) (k0 : String)
    (sm0 : SubMap) (q : List String)
    (h1 : (web ++ [k0]) ++ [INDEX_FILE] ≠ q)
    (h2 : ∀ x, ((web ++ [k0]) ++ [x]) ++ [INDEX_FILE] ≠ q) :
    writesTo q (make_html web k0 sm0 opts) = [] := by
  simp only [make_html, write_html_index_file, writesTo]
  rw [if_neg h1, writesTo_sub_far _ _ _ _ h2]

theorem writesTo_make_html_key_eq (web : List String) (opts : Opts) (k : String)
    (sm0 : SubMap) :
    writesTo ((web ++ [k]) ++ [INDEX_FILE]) (make_html web k sm0 opts)
      = [indexTemplate
          { title := "SAL Topics for " ++ pyCapitalize k, heading := none, link := false }
          (sm0.map Prod.fst) opts] := by
  have hfar : ∀ x, ((web ++ [k]) ++ [x]) ++ [INDEX_FILE] ≠ (web ++ [k]) ++ [INDEX_FILE] :=
    fun x => ne_of_length_ne (by simp)
  simp only [make_html, write_html_index_file, writesTo, if_true]
  rw [writesTo_sub_far _ _ _ _ hfar]

theorem writesTo_make_html_key_ne (web : List String) (opts : Opts) (k0 k : String)
    (sm0 : SubMap) (hk : k0 ≠ k) :
    writesTo ((web ++ [k]) ++ [INDEX_FILE]) (make_html web k0 sm0 opts) = [] := by
  refine writesTo_make_html_far web opts k0 sm0 _ ?_ ?_
  · intro he
    exact hk ((snoc_eq_snoc_iff _ _ _ _).mp ((snoc_eq_snoc_iff _ _ _ _).mp he).1).2
  · intro x
    exact ne_of_length_ne (by simp)

theorem writesTo_make_html_subkey_ne (web : List String) (opts : Opts)
    (k0 k sk : String) (sm0 : SubMap) (hk : k0 ≠ k) :
    writesTo (((web ++ [k]) ++ [sk]) ++ [INDEX_FILE]) (make_html web k0 sm0 opts) = [] := by
  refine writesTo_make_html_far web opts k0 sm0 _ ?_ ?_
  · exact ne_of_length_ne (by simp)
  · intro x he
    have h2 := ((snoc_eq_snoc_iff _ _ _ _).mp he).1
    exact hk ((snoc_eq_snoc_iff _ _ _ _).mp ((snoc_eq_snoc_iff _ _ _ _).mp h2).1).2

theorem writesTo_make_html_subkey_eq (web : List String) (opts : Opts)
    (k sk : String) (leaves : List String) (sm0 : SubMap)
    (hnd : (sm0.map Prod.fst).Nodup) (hmem : (sk, leaves) ∈ sm0) :
    writesTo (((web ++ [k]) ++ [sk]) ++ [INDEX_FILE]) (make_html web k sm0 opts)
      = [indexTemplate { title := sk, heading := some sk, link := true } leaves opts] := by
  have h1 : (web ++ [k]) ++ [INDEX_FILE] ≠ ((web ++ [k]) ++ [sk]) ++ [INDEX_FILE] :=
    ne_of_length_ne (by simp)
  simp only [make_html, write_html_index_file, writesTo]
  rw [if_neg h1, writesTo_sub_self _ _ _ _ _ hnd hmem]

theorem countMkdirs_main_loop_notkey (web : List String) (opts : Opts) (m : ArtifactMap)
    (k : String) (h : k ∉ m.map Prod.fst) :
    countMkdirs (web ++ [k]) (main_loop web opts m) = 0 := by
  induction m with
  | nil => rfl
  | cons e rest ih =>
    obtain ⟨k0, sm0⟩ := e
    have hk0 : k0 ≠ k := fun he => h (by simp [he])
    have hrest : k ∉ rest.map Prod.fst := fun he => h (by simp [he])
    simp only [main_loop]
    rw [countMkdirs_append, countMkdirs_make_html_key, if_neg hk0, ih hrest]

theorem countMkdirs_main_loop_key (web : List String) (opts : Opts) (m : ArtifactMap)
    (k : String) (sm : SubMap)
    (hnd : (m.map Prod.fst).Nodup) (hmem : (k, sm) ∈ m) :
    countMkdirs (web ++ [k]) (main_loop web opts m) = 1 := by
  induction m with
  | nil => exact absurd hmem (List.not_mem_nil _)
  | cons e rest ih =>
    obtain ⟨k0, sm0⟩ := e
    rw [List.map_cons, List.nodup_cons] at hnd
    obtain ⟨hknotin, hndrest⟩ := hnd
    simp only [main_loop]
    rw [countMkdirs_append, countMkdirs_make_html_key]
    rcases List.mem_cons.mp hmem with heq | hmem2
    · injection heq with h1 h2
      subst h1
      rw [if_pos rfl, countMkdirs_main_loop_notkey web opts rest k hknotin]
    · have hk : k ∈ rest.map Prod.fst := List.mem_map_of_mem Prod.fst hmem2
      have hk0 : k0 ≠ k := fun he => hknotin (he ▸ hk)
      rw [if_neg hk0, ih hndrest hmem2]

theorem countMkdirs_main_loop_sub_notkey (web : List String) (opts : Opts)
    (m : ArtifactMap) (k sk : String) (h : k ∉ m.map Prod.fst) :
    countMkdirs ((web ++ [k]) ++ [sk]) (main_loop web opts m) = 0 := by
  induction m with
  | nil => rfl
  | cons e rest ih =>
    obtain ⟨k0, sm0⟩ := e
    have hk0 : k0 ≠ k := fun he => h (by simp [he])
    have hrest : k ∉ rest.map Prod.fst := fun he => h (by simp [he])
    simp only [main_loop]
    rw [countMkdirs_append, countMkdirs_make_html_subkey_ne web opts k0 k sk sm0 hk0,
      ih hrest]

theorem countMkdirs_main_loop_sub (web : List String) (opts : Opts) (m : ArtifactMap)
    (k sk : String) (sm : SubMap) (leaves : List String)
    (hnd : (m.map Prod.fst).Nodup) (hmem : (k, sm) ∈ m)
    (hsnd : (sm.map Prod.fst).Nodup) (hsmem : (sk, leaves) ∈ sm) :
    countMkdirs ((web ++ [k]) ++ [sk]) (main_loop web opts m) = 1 := by
  induction m with
  | nil => exact absurd hmem (List.not_mem_nil _)
  | cons e rest ih =>
    obtain ⟨k0, sm0⟩ := e
    rw [List.map_cons, List.nodup_cons] at hnd
    obtain ⟨hknotin, hndrest⟩ := hnd
    simp only [main_loop]
    rw [countMkdirs_append]
    rcases List.mem_cons.mp hmem with heq | hmem2
    · injection heq with h1 h2
      subst h1
      subst h2
      rw [countMkdirs_make_html_subkey_eq web opts k sk leaves sm hsnd hsmem,
        countMkdirs_main_loop_sub_notkey web opts rest k sk hknotin]
    · have hk : k ∈ rest.map Prod.fst := List.mem_map_of_mem Prod.fst hmem2
      have hk0 : k0 ≠ k := fun he => hknotin (he ▸ hk)
      rw [countMkdirs_make_html_subkey_ne web opts k0 k sk sm0 hk0, ih hndrest hmem2]

theorem writesTo_main_loop_far (web : List String) (opts : Opts) (m : ArtifactMap)
    (q : List String)
    (h1 : ∀ x, (web ++ [x]) ++ [INDEX_FILE] ≠ q)
    (h2 : ∀ x y, ((web ++ [x]) ++ [y]) ++ [INDEX_FILE] ≠ q) :
    writesTo q (main_loop web opts m) = [] := by
  induction m with
  | nil => rfl
  | cons e rest ih =>
    obtain ⟨k0, sm0⟩ := e
    simp only [main_loop]
    rw [writesTo_append, writesTo_make_html_far web opts k0 sm0 q (h1 k0) (h2 k0), ih]
    rfl

theorem writesTo_main_loop_key_notkey (web : List String) (opts : Opts) (m : ArtifactMap)
    (k : String) (h : k ∉ m.map Prod.fst) :
    writesTo ((web ++ [k]) ++ [INDEX_FILE]) (main_loop web opts m) = [] := by
  induction m with
  | nil => rfl
  | cons e rest ih =>
    obtain ⟨k0, sm0⟩ := e
    have hk0 : k0 ≠ k := fun he => h (by simp [he])
    have hrest : k ∉ rest.map Prod.fst := fun he => h (by simp [he])
    simp only [main_loop]
    rw [writesTo_append, writesTo_make_html_key_ne web opts k0 k sm0 hk0, ih hrest]
    rfl

theorem writesTo_main_loop_key (web : List String) (opts : Opts) (m : ArtifactMap)
    (k : String) (sm : SubMap)
    (hnd : (m.map Prod.fst).Nodup) (hmem : (k, sm) ∈ m) :
    writesTo ((web ++ [k]) ++ [INDEX_FILE]) (main_loop web opts m)
      = [indexTemplate
          { title := "SAL Topics for " ++ pyCapitalize k, heading := none, link := false }
          (sm.map Prod.fst) opts] := by
  induction m with
  | nil => exact absurd hmem (List.not_mem_nil _)
  | cons e rest ih =>
    obtain ⟨k0, sm0⟩ := e
    rw [List.map_cons, List.nodup_cons] at hnd
    obtain ⟨hknotin, hndrest⟩ := hnd
    simp only [main_loop]
    rw [writesTo_append]
    rcases List.mem_cons.mp hmem with heq | hmem2
    · injection heq with h1 h2
      subst h1
      subst h2
      rw [writesTo_make_html_key_eq web opts k sm,
        writesTo_main_loop_key_notkey web opts rest k hknotin, List.append_nil]
    · have hk : k ∈ rest.map Prod.fst := List.mem_map_of_mem Prod.fst hmem2
      have hk0 : k0 ≠ k := fun he => hknotin (he ▸ hk)
      rw [writesTo_make_html_key_ne web opts k0 k sm0 hk0, ih hndrest hmem2]
      rfl

theorem writesTo_main_loop_sub_notkey (web : List String) (opts : Opts) (m : ArtifactMap)
    (k sk : String) (h : k ∉ m.map Prod.fst) :
    writesTo (((web ++ [k]) ++ [sk]) ++ [INDEX_FILE]) (main_loop web opts m) = [] := by
  induction m with
  | nil => rfl
  | cons e rest ih =>
    obtain ⟨k0, sm0⟩ := e
    have hk0 : k0 ≠ k := fun he => h (by simp [he])
    have hrest : k ∉ rest.map Prod.fst := fun he => h (by simp [he])
    simp only [main_loop]
    rw [writesTo_append, writesTo_make_html_subkey_ne web opts k0 k sk sm0 hk0, ih hrest]
    rfl

theorem writesTo_main_loop_sub (web : List String) (opts : Opts) (m : ArtifactMap)
    (k sk : String) (sm : SubMap) (leaves : List String)
    (hnd : (m.map Prod.fst).Nodup) (hmem : (k, sm) ∈ m)
    (hsnd : (sm.map Prod.fst).Nodup) (hsmem : (sk, leaves) ∈ sm) :
    writesTo (((web ++ [k]) ++ [sk]) ++ [INDEX_FILE]) (main_loop web opts m)
      = [indexTemplate { title := sk, heading := some sk, link := true } leaves opts] := by
  induction m with
  | nil => exact absurd hmem (List.not_mem_nil _)
  | cons e rest ih =>
    obtain ⟨k0, sm0⟩ := e
    rw [List.map_cons, List.nodup_cons] at hnd
    obtain ⟨hknotin, hndrest⟩ := hnd
    simp only [main_loop]
    rw [writesTo_append]
    rcases List.mem_cons.mp hmem with heq | hmem2
    · injection heq with h1 h2
      subst h1
      subst h2
      rw [writesTo_make_html_subkey_eq web opts k sk leaves sm hsnd hsmem,
        writesTo_main_loop_sub_notkey web opts rest k sk hknotin, List.append_nil]
    · have hk : k ∈ rest.map Prod.fst := List.mem_map_of_mem Prod.fst hmem2
      have hk0 : k0 ≠ k := fun he => hknotin (he ▸ hk)
      rw [writesTo_make_html_subkey_ne web opts k0 k sk sm0 hk0, ih hndrest hmem2]
      rfl

theorem linkText_link_false (c : PageContent) (hc : c.link = false) (link : String) :
    linkText c link = (pySplitChar '.' link).headD "" := by
  simp [linkText, hc]

theorem linkLines_link_true (c : PageContent) (hc : c.link = true) (links : List String) :
    linkLines c links = links.map (fun link =>
      "<a href=" ++ link ++ ">"
        ++ (pySplitChar '_' ((pySplitChar '.' link).headD "")).getLastD ""
        ++ "</a><br />\n") := by
  induction links with
  | nil => rfl
  | cons l rest ih => simp [linkLines, linkText, hc, ih]

/-- **C5** — For every top-level key of an Artifact Map returned by
`get_bucket_directories`, the run of `main` creates exactly one directory
named after the key directly under the output root, and writes exactly one
index file in it, whose links are exactly the key's sub-keys and whose
title is `SAL Topics for <Key, capitalized>`. -/
theorem toplevel_index_exact (lines : List String) (m : ArtifactMap) (opts : Opts)
    (out_path : List String) (k : String) (sm : SubMap)
    (hok : get_bucket_directories lines = Except.ok m)
    (hmem : (k, sm) ∈ m) :
    countMkdirs (out_path ++ [OUTPUT_LOCATION] ++ [k]) (mainEvents m opts out_path) = 1 ∧
    writesTo (out_path ++ [OUTPUT_LOCATION] ++ [k] ++ [INDEX_FILE])
        (mainEvents m opts out_path)
      = [indexTemplate
          { title := "SAL Topics for " ++ pyCapitalize k, heading := none, link := false }
          (sm.map Prod.fst) opts] := by
  obtain ⟨hnd, _⟩ := get_bucket_directories_nodup lines m hok
  constructor
  · simp only [mainEvents, write_html_index_file, countMkdirs]
    exact countMkdirs_main_loop_key (out_path ++ [OUTPUT_LOCATION]) opts m k sm hnd hmem
  · simp only [mainEvents, write_html_index_file, writesTo]
    rw [if_neg (ne_of_length_ne (by simp))]
    exact writesTo_main_loop_key (out_path ++ [OUTPUT_LOCATION]) opts m k sm hnd hmem

theorem toplevel_index_exact_witness :
    countMkdirs (["r"] ++ [OUTPUT_LOCATION] ++ ["topicsA"])
        (mainEvents [("topicsA", [("csc1", ["foo_bar.html"])])]
          { verbose := 0, sync := false, base := none } ["r"]) = 1 ∧
    writesTo (["r"] ++ [OUTPUT_LOCATION] ++ ["topicsA"] ++ [INDEX_FILE])
        (mainEvents [("topicsA", [("csc1", ["foo_bar.html"])])]
          { verbose := 0, sync := false, base := none } ["r"])
      = [indexTemplate
          { title := "SAL Topics for " ++ pyCapitalize "topicsA", heading := none,
            link := false }
          ([("csc1", ["foo_bar.html"])].map Prod.fst)
          { verbose := 0, sync := false, base := none }] :=
  toplevel_index_exact ["x 1 topicsA/csc1/foo_bar.html"]
    [("topicsA", [("csc1", ["foo_bar.html"])])]
    { verbose := 0, sync := false, base := none } ["r"] "topicsA"
    [("csc1", ["foo_bar.html"])] (by decide) (by decide)

/-- **C4** — For every (top-level key, sub-key) pair of an Artifact Map
returned by `get_bucket_directories`, the run of `main` creates exactly one
directory for the sub-key and writes exactly one index file in it whose
links are exactly the pair's leaf list in original order, rendered with the
`link` flag set, so each display text is the portion of the file name after
the last underscore and before the first period; on the non-leaf pages
(the front page and the top-level-key pages) the content's `link` flag is
absent, so display text is only the portion before the first period. -/
theorem subkey_index_exact (lines : List String) (m : ArtifactMap) (opts : Opts)
    (out_path : List String) (k sk : String) (sm : SubMap) (leaves : List String)
    (hok : get_bucket_directories lines = Except.ok m)
    (hmem : (k, sm) ∈ m) (hsmem : (sk, leaves) ∈ sm) :
    countMkdirs (out_path ++ [OUTPUT_LOCATION] ++ [k] ++ [sk])
      (mainEvents m opts out_path) = 1 ∧
    writesTo (out_path ++ [OUTPUT_LOCATION] ++ [k] ++ [sk] ++ [INDEX_FILE])
        (mainEvents m opts out_path)
      = [indexTemplate { title := sk, heading := some sk, link := true } leaves opts] ∧
    linkLines { title := sk, heading := some sk, link := true } leaves
      = leaves.map (fun link => "<a href=" ++ link ++ ">"
          ++ (pySplitChar '_' ((pySplitChar '.' link).headD "")).getLastD ""
          ++ "</a><br />\n") ∧
    (∀ c : PageContent, c.link = false → ∀ link,
      linkText c link = (pySplitChar '.' link).headD "") ∧
    writesTo (out_path ++ [OUTPUT_LOCATION] ++ [INDEX_FILE]) (mainEvents m opts out_path)
      = [indexTemplate
          { title := "SAL Topics Frontpage", heading := some "Version of SAL Topics",
            link := false }
          (m.map Prod.fst) opts] := by
  obtain ⟨hnd, hsub⟩ := get_bucket_directories_nodup lines m hok
  have hsnd : (sm.map Prod.fst).Nodup := hsub (k, sm) hmem
  refine ⟨?_, ?_, linkLines_link_true _ rfl leaves, fun c hc link => linkText_link_false c hc link, ?_⟩
  · simp only [mainEvents, write_html_index_file, countMkdirs]
    exact countMkdirs_main_loop_sub (out_path ++ [OUTPUT_LOCATION]) opts m k sk sm leaves
      hnd hmem hsnd hsmem
  · simp only [mainEvents, write_html_index_file, writesTo]
    rw [if_neg (ne_of_length_ne (by simp))]
    exact writesTo_main_loop_sub (out_path ++ [OUTPUT_LOCATION]) opts m k sk sm leaves
      hnd hmem hsnd hsmem
  · simp only [mainEvents, write_html_index_file, writesTo, if_true]
    rw [writesTo_main_loop_far (out_path ++ [OUTPUT_LOCATION]) opts m _
      (fun x => ne_of_length_ne (by simp)) (fun x y => ne_of_length_ne (by simp))]

theorem subkey_index_exact_witness :
    countMkdirs (["r"] ++ [OUTPUT_LOCATION] ++ ["topicsA"] ++ ["csc1"])
        (mainEvents [("topicsA", [("csc1", ["foo_bar.html"])])]
          { verbose := 0, sync := false, base := none } ["r"]) = 1 ∧
    writesTo (["r"] ++ [OUTPUT_LOCATION] ++ ["topicsA"] ++ ["csc1"] ++ [INDEX_FILE])
        (mainEvents [("topicsA", [("csc1", ["foo_bar.html"])])]
          { verbose := 0, sync := false, base := none } ["r"])
      = [indexTemplate { title := "csc1", heading := some "csc1", link := true }
          ["foo_bar.html"] { verbose := 0, sync := false, base := none }] ∧
    linkLines { title := "csc1", heading := some "csc1", link := true } ["foo_bar.html"]
      = ["foo_bar.html"].map (fun link => "<a href=" ++ link ++ ">"
          ++ (pySplitChar '_' ((pySplitChar '.' link).headD "")).getLastD ""
          ++ "</a><br />\n") := by
  have h := subkey_index_exact ["x 1 topicsA/csc1/foo_bar.html"]
    [("topicsA", [("csc1", ["foo_bar.html"])])]
    { verbose := 0, sync := false, base := none } ["r"] "topicsA" "csc1"
    [("csc1", ["foo_bar.html"])] ["foo_bar.html"] (by decide) (by decide) (by decide)
  exact ⟨h.1, h.2.1, h.2.2.1⟩

/-! ## Running the events against a filesystem -/

theorem runEvents_append (dirs : List (List String)) (l1 l2 : List FsEvent) :
    runEvents dirs (l1 ++ l2) = (runEvents dirs l1).bind (fun d => runEvents d l2) := by
  induction l1 generalizing dirs with
  | nil => rfl
  | cons e rest ih =>
    cases e with
    | mkdirs p => simp only [List.cons_append, runEvents, List.append_eq, ih]
    | writeFile p c =>
      by_cases h : parentDir p ∈ dirs
      · simp only [List.cons_append, runEvents, List.append_eq, if_pos h, ih]
      · simp only [List.cons_append, runEvents, if_neg h, Option.bind]

theorem mem_pathChain_self (p : List String) : p ∈ pathChain p := by
  unfold pathChain
  refine List.mem_map.mpr ⟨p.length, ?_, List.take_length p⟩
  exact List.mem_range.mpr (Nat.lt_succ_self _)

theorem parentDir_snoc (xs : List String) (a : String) : parentDir (xs ++ [a]) = xs := by
  unfold parentDir
  induction xs with
  | nil => rfl
  | cons x xt ih =>
    rw [List.cons_append, List.dropLast_cons_of_ne_nil (by simp), ih]

theorem make_html_sub_runs (sp : List String) (opts : Opts) (sm : SubMap) :
    ∀ dirs, ∃ d, runEvents dirs (make_html_sub sp opts sm) = some d := by
  induction sm with
  | nil => exact fun dirs => ⟨dirs, rfl⟩
  | cons e rest ih =>
    obtain ⟨k, ls⟩ := e
    intro dirs
    have hpar : parentDir ((sp ++ [k]) ++ [INDEX_FILE]) ∈ dirs ++ pathChain (sp ++ [k]) := by
      rw [parentDir_snoc]
      exact List.mem_append.mpr (Or.inr (mem_pathChain_self _))
    simp only [make_html_sub, write_html_index_file, runEvents]
    rw [if_pos hpar]
    exact ih _

theorem make_html_runs (path : List String) (key : String) (items : SubMap) (opts : Opts)
    (dirs : List (List String)) :
    ∃ d, runEvents dirs (make_html path key items opts) = some d := by
  have hpar : parentDir ((path ++ [key]) ++ [INDEX_FILE]) ∈ dirs ++ pathChain (path ++ [key]) := by
    rw [parentDir_snoc]
    exact List.mem_append.mpr (Or.inr (mem_pathChain_self _))
  simp only [make_html, write_html_index_file, runEvents]
  rw [if_pos hpar]
  exact make_html_sub_runs _ _ _ _

theorem main_loop_runs (web : List String) (opts : Opts) (m : ArtifactMap) :
    ∀ dirs, ∃ d, runEvents dirs (main_loop web opts m) = some d := by
  induction m with
  | nil => exact fun dirs => ⟨dirs, rfl⟩
  | cons e rest ih =>
    obtain ⟨k, sm⟩ := e
    intro dirs
    rw [main_loop, runEvents_append]
    obtain ⟨d1, hd1⟩ := make_html_runs web k sm opts dirs
    rw [hd1]
    exact ih d1

/-- **C1 (counterexample)** — The front-page index write at the output root
is not preceded by any ensure-existence step: no event of the run creates
the output directory, and running the events of `main` on a filesystem
where the output root is missing fails at the very first file write. -/
theorem front_page_write_unguarded_cex :
    countMkdirs (["home"] ++ [OUTPUT_LOCATION])
        (mainEvents [("topicsA", [("csc1", ["a_b.html"])])]
          { verbose := 0, sync := false, base := none } ["home"]) = 0 ∧
    runEvents [] (mainEvents [("topicsA", [("csc1", ["a_b.html"])])]
        { verbose := 0, sync := false, base := none } ["home"]) = none := by
  constructor
  · decide
  · decide

/-- **C1 (amended)** — Inside `make_html` every index write is preceded by
`check_and_make_dirs` of its target directory, so the events of `make_html`
run successfully from any filesystem state; the front-page index write of
`main`, however, has no such guard: the whole run succeeds exactly when the
output root directory already exists beforehand. -/
theorem make_html_writes_guarded (dirs : List (List String)) (path : List String)
    (key : String) (items : SubMap) (opts : Opts) (m : ArtifactMap)
    (out_path : List String) :
    (runEvents dirs (make_html path key items opts)).isSome = true ∧
    (out_path ++ [OUTPUT_LOCATION] ∈ dirs →
      (runEvents dirs (mainEvents m opts out_path)).isSome = true) := by
  constructor
  · obtain ⟨d, hd⟩ := make_html_runs path key items opts dirs
    rw [hd]
    rfl
  · intro hweb
    have hpar : parentDir ((out_path ++ [OUTPUT_LOCATION]) ++ [INDEX_FILE]) ∈ dirs := by
      rw [parentDir_snoc]
      exact hweb
    simp only [mainEvents, write_html_index_file, runEvents]
    rw [if_pos hpar]
    obtain ⟨d, hd⟩ := main_loop_runs (out_path ++ [OUTPUT_LOCATION]) opts m dirs
    rw [hd]
    rfl

theorem make_html_writes_guarded_witness :
    (runEvents [] (make_html ["r", "website"] "topicsA" [("csc1", ["a_b.html"])]
      { verbose := 0, sync := false, base := none })).isSome = true ∧
    (runEvents [["r", "website"]]
      (mainEvents [("topicsA", [("csc1", ["a_b.html"])])]
        { verbose := 0, sync := false, base := none } ["r"])).isSome = true := by
  have h1 := make_html_writes_guarded [] ["r", "website"] "topicsA"
    [("csc1", ["a_b.html"])] { verbose := 0, sync := false, base := none }
    [("topicsA", [("csc1", ["a_b.html"])])] ["r"]
  have h2 := make_html_writes_guarded [["r", "website"]] ["r", "website"] "topicsA"
    [("csc1", ["a_b.html"])] { verbose := 0, sync := false, base := none }
    [("topicsA", [("csc1", ["a_b.html"])])] ["r"]
  exact ⟨h1.1, h2.2 (by decide)⟩

/-- **C7** — With sync enabled, the exit status of the sync command is never
inspected: `main` produces the same result for any two exit statuses, and
whenever the listing succeeded it completes normally, generating the same
local tree of events; the only trace of the sync command in the result is
its stdout, echoed exactly when verbosity is greater than zero. -/
theorem sync_exit_status_ignored (lines : List String) (opts : Opts)
    (out_path out : List String) (e1 e2 : Int)
    (hs : opts.sync = true) :
    mainModel lines { exitCode := e1, stdout := out } opts out_path
      = mainModel lines { exitCode := e2, stdout := out } opts out_path ∧
    (∀ m, get_bucket_directories lines = Except.ok m →
      mainModel lines { exitCode := e1, stdout := out } opts out_path
        = Except.ok
          { events := mainEvents m
              { opts with base := some (opts.base.getD BUCKET_WEBSITE) } out_path,
            syncInvoked := true,
            echoed := if opts.verbose > 0 then out else [] }) := by
  constructor
  · rfl
  · intro m hg
    simp [mainModel, hg, hs]

theorem sync_exit_status_ignored_witness :
    mainModel [""] { exitCode := 0, stdout := ["up"] }
        { verbose := 1, sync := true, base := none } ["r"]
      = mainModel [""] { exitCode := 1, stdout := ["up"] }
        { verbose := 1, sync := true, base := none } ["r"] ∧
    mainModel [""] { exitCode := 0, stdout := ["up"] }
        { verbose := 1, sync := true, base := none } ["r"]
      = Except.ok
        { events := mainEvents [] { verbose := 1, sync := true, base := some BUCKET_WEBSITE } ["r"],
          syncInvoked := true, echoed := ["up"] } := by
  have h := sync_exit_status_ignored [""] { verbose := 1, sync := true, base := none }
    ["r"] ["up"] 0 1 rfl
  exact ⟨h.1, h.2 [] (by decide)⟩
